import Mathlib

/-!
Verification of the bounded concurrent work-queue core of the GoMaster
repository: the condition-variable producer/consumer demo
(`src/sync/cond.go`), the worker pools and pipeline of
`src/unnamed/part_000`, the worker-pool / fan-in patterns of
`src/notes/Patterns.md`, and the BoundedQueue / CancellationToken
contracts of the specification (modelled from the spec where the
repository contains no corresponding implementation).

Concurrent programs are embedded as small-step transition systems: each
state records the shared buffer and every thread's control point, each
step is one lock-held (or channel-atomic) region of the source, and
reachability is the reflexive-transitive closure of the step relation.
-/

set_option maxHeartbeats 1000000

namespace CondGo

/-!
## Model of `src/sync/cond.go`

Package state: `queue []int`, `mu sync.Mutex`, `cond = sync.NewCond(&mu)`,
`capacity` (set to 5 in the source; kept as a parameter `cap` so the
claim's "capacity C" can be instantiated).  `main` runs `producer(1)`,
`producer(2)`, `consumer(3)`, `consumer(4)`; each loops `i = 1..3`.

Each transition below is one region of code executed while holding `mu`.
`cond.Wait` releases the lock and suspends; `cond.Signal` wakes the
longest-waiting goroutine (Go's runtime notify list is FIFO), which then
re-acquires the lock before resuming.  Crucially, the source guards the
wait with a single `if`, so a woken producer appends and a woken
consumer reads `queue[0]` WITHOUT re-checking the predicate; a woken
consumer facing an empty queue models Go's index-out-of-range panic as a
transition to a crashed state.
-/

/-- The four goroutines spawned by `main`: two producers, two consumers. -/
inductive CTid where
  | p1 | p2 | c1 | c2
deriving DecidableEq, Repr

/-- Control point of a goroutine with respect to the condition variable:
running its loop, suspended in `cond.Wait`, or signalled but not yet
re-holding the mutex. -/
inductive CPhase where
  | run | waiting | woken
deriving DecidableEq, Repr

/-- One goroutine: its phase and how many loop iterations remain
(each of the four loops runs `i = 1..3`, so `rem` starts at 3 and the
loop body for iteration `i` runs when `rem = 4 - i`). -/
structure CThr where
  phase : CPhase
  rem : Nat
deriving DecidableEq, Repr

/-- Whole-program state of the cond.go demo. -/
structure CSt where
  queue : List Nat
  p1 : CThr
  p2 : CThr
  c1 : CThr
  c2 : CThr
  waiters : List CTid
  crashed : Bool
deriving DecidableEq, Repr

def getT (s : CSt) : CTid → CThr
  | .p1 => s.p1
  | .p2 => s.p2
  | .c1 => s.c1
  | .c2 => s.c2

def setT (s : CSt) : CTid → CThr → CSt
  | .p1, v => { s with p1 := v }
  | .p2, v => { s with p2 := v }
  | .c1, v => { s with c1 := v }
  | .c2, v => { s with c2 := v }

def isProd : CTid → Bool
  | .p1 => true
  | .p2 => true
  | _ => false

def isCons : CTid → Bool
  | .c1 => true
  | .c2 => true
  | _ => false

/-- `cond.Signal()`: wake the head of the FIFO wait list (no-op when no
goroutine is waiting); the woken goroutine still has to re-acquire `mu`. -/
def signal (s : CSt) : CSt :=
  match s.waiters with
  | [] => s
  | w :: rest =>
      let s' := { s with waiters := rest }
      setT s' w ⟨.woken, (getT s' w).rem⟩

/-- Initial state: empty queue, every goroutine about to run 3 iterations. -/
def cInit : CSt :=
  { queue := []
    p1 := ⟨.run, 3⟩
    p2 := ⟨.run, 3⟩
    c1 := ⟨.run, 3⟩
    c2 := ⟨.run, 3⟩
    waiters := []
    crashed := false }

/-- One lock-held region of `src/sync/cond.go`, at buffer capacity `cap`.
The producer/consumer guards transcribe the source's `if` checks
(`len(queue) == capacity`, `len(queue) == 0`); the `Woken` steps
transcribe the code that runs after `cond.Wait` returns, which appends /
reads the head with NO re-check of the predicate. -/
inductive CStep (cap : Nat) : CSt → CSt → Prop
  /-- `producer`: lock; `len(queue) != capacity`, so append `i`, signal,
  unlock. The appended value is the loop variable `i = 4 - rem`. -/
  | prodAdd (s : CSt) (t : CTid) (hp : isProd t = true)
      (hph : (getT s t).phase = .run) (hr : 0 < (getT s t).rem)
      (hq : s.queue.length ≠ cap) (hc : s.crashed = false) :
      CStep cap s
        (signal (setT { s with queue := s.queue ++ [4 - (getT s t).rem] }
          t ⟨.run, (getT s t).rem - 1⟩))
  /-- `producer`: lock; `len(queue) == capacity`, so `cond.Wait()`
  (join the wait list, release the lock). -/
  | prodWait (s : CSt) (t : CTid) (hp : isProd t = true)
      (hph : (getT s t).phase = .run) (hr : 0 < (getT s t).rem)
      (hq : s.queue.length = cap) (hc : s.crashed = false) :
      CStep cap s
        (setT { s with waiters := s.waiters ++ [t] } t ⟨.waiting, (getT s t).rem⟩)
  /-- `producer` resuming from `cond.Wait`: re-acquire the lock and run the
  rest of the loop body — append, signal, unlock — with NO re-check of
  `len(queue) == capacity` (the source used `if`, not `for`). -/
  | prodWokenAdd (s : CSt) (t : CTid) (hp : isProd t = true)
      (hph : (getT s t).phase = .woken) (hc : s.crashed = false) :
      CStep cap s
        (signal (setT { s with queue := s.queue ++ [4 - (getT s t).rem] }
          t ⟨.run, (getT s t).rem - 1⟩))
  /-- `consumer`: lock; `len(queue) != 0`, so take `queue[0]`, signal,
  unlock. -/
  | consTake (s : CSt) (t : CTid) (x : Nat) (rest : List Nat)
      (hp : isCons t = true) (hph : (getT s t).phase = .run)
      (hr : 0 < (getT s t).rem) (hq : s.queue = x :: rest)
      (hc : s.crashed = false) :
      CStep cap s
        (signal (setT { s with queue := rest } t ⟨.run, (getT s t).rem - 1⟩))
  /-- `consumer`: lock; `len(queue) == 0`, so `cond.Wait()`. -/
  | consWait (s : CSt) (t : CTid) (hp : isCons t = true)
      (hph : (getT s t).phase = .run) (hr : 0 < (getT s t).rem)
      (hq : s.queue = []) (hc : s.crashed = false) :
      CStep cap s
        (setT { s with waiters := s.waiters ++ [t] } t ⟨.waiting, (getT s t).rem⟩)
  /-- `consumer` resuming from `cond.Wait` with the queue non-empty:
  take `queue[0]`, signal, unlock (again no re-check needed here since
  the queue happens to be non-empty). -/
  | consWokenTake (s : CSt) (t : CTid) (x : Nat) (rest : List Nat)
      (hp : isCons t = true) (hph : (getT s t).phase = .woken)
      (hq : s.queue = x :: rest) (hc : s.crashed = false) :
      CStep cap s
        (signal (setT { s with queue := rest } t ⟨.run, (getT s t).rem - 1⟩))
  /-- `consumer` resuming from `cond.Wait` with the queue EMPTY: the
  source evaluates `queue[0]` without re-checking `len(queue) == 0`,
  which panics with an index-out-of-range runtime error. -/
  | consWokenCrash (s : CSt) (t : CTid)
      (hp : isCons t = true) (hph : (getT s t).phase = .woken)
      (hq : s.queue = []) (hc : s.crashed = false) :
      CStep cap s { s with crashed := true }

/-- Reachability from the initial state of the cond.go demo. -/
def CReach (cap : Nat) : CSt → Prop :=
  Relation.ReflTransGen (CStep cap) cInit

end CondGo

/-- C1: the claim asserts that for every interleaving on the bounded
queue of capacity C the invariant `0 ≤ len(queue) ≤ C` holds and that a
producer woken from `cond.Wait` while the buffer is still full re-checks
its predicate and blocks again.  The code of `src/sync/cond.go` guards
`cond.Wait` with a single `if`, so a woken producer appends without
re-checking: at capacity 1 the interleaving (producer 2 puts; producer 1
finds the queue full and waits; consumer 3 takes and signals; producer 2
puts again; woken producer 1 appends blindly) drives the buffer to
length 2 > 1, a reachable state violating the claimed invariant. -/
theorem c1_cond_overflow_reachable :
    ∃ s, CondGo.CReach 1 s ∧ 1 < s.queue.length := by
  have h : CondGo.CReach 1 _ :=
    Relation.ReflTransGen.head
      (CondGo.CStep.prodAdd CondGo.cInit .p2 rfl rfl (by decide) (by decide) rfl)
      (Relation.ReflTransGen.head
        (CondGo.CStep.prodWait _ .p1 rfl rfl (by decide) (by decide) rfl)
        (Relation.ReflTransGen.head
          (CondGo.CStep.consTake _ .c1 1 [] rfl rfl (by decide) rfl rfl)
          (Relation.ReflTransGen.head
            (CondGo.CStep.prodAdd _ .p2 rfl rfl (by decide) (by decide) rfl)
            (Relation.ReflTransGen.head
              (CondGo.CStep.prodWokenAdd _ .p1 rfl rfl rfl)
              Relation.ReflTransGen.refl))))
  exact ⟨_, h, by decide⟩

/-- C9: the claim asserts that a consumer evaluates `queue[0]` and
`queue[1:]` only when `len(queue) > 0`.  With the source's own constants
(capacity 5, two producers, two consumers) the interleaving (consumer 3
finds the queue empty and waits; producer 1 puts and signals, waking
consumer 3; consumer 4 takes the only item; woken consumer 3 reads
`queue[0]` without re-checking) reaches the empty-slice head access,
i.e. Go's index-out-of-range panic, modelled here as the `crashed`
state. -/
theorem c9_cond_empty_head_access_reachable :
    ∃ s, CondGo.CReach 5 s ∧ s.crashed = true := by
  have h : CondGo.CReach 5 _ :=
    Relation.ReflTransGen.head
      (CondGo.CStep.consWait CondGo.cInit .c1 rfl rfl (by decide) rfl rfl)
      (Relation.ReflTransGen.head
        (CondGo.CStep.prodAdd _ .p1 rfl rfl (by decide) (by decide) rfl)
        (Relation.ReflTransGen.head
          (CondGo.CStep.consTake _ .c2 1 [] rfl rfl (by decide) rfl rfl)
          (Relation.ReflTransGen.head
            (CondGo.CStep.consWokenCrash _ .c1 rfl rfl rfl rfl)
            Relation.ReflTransGen.refl)))
  exact ⟨_, h, by decide⟩

namespace Pool

/-!
## Model of the worker-pool / fan-in pattern of `src/notes/Patterns.md`

`main` starts `N` workers (`wg.Add(1)`; `go worker(...)`), feeds the
jobs into a buffered `jobs` channel, closes it, waits on the `WaitGroup`
and then calls `close(results)` exactly once.  Each `worker` is
`defer wg.Done(); for job := range jobs { results <- f(job) }`: it takes
a job, pushes the processed result, and exits when `jobs` is closed and
drained.  The same shape covers the fan-out/fan-in example (§3 of
`Patterns.md`), where the producer goroutine feeds `jobs` and a closer
goroutine runs `wg.Wait(); close(results)`.

Parameters: `N` workers, job list `js`, processing function `f`,
channel capacities `jCap` (jobs) and `rCap` (results).  `procd` is a
history variable recording, in completion order, the jobs whose results
were pushed; it affects no guard.
-/

/-- A worker: in its `range` loop ready to take, holding a job whose
result is not yet pushed, or exited (`wg.Done` executed). -/
inductive WSt where
  | idle
  | busy (j : Int)
  | stopped
deriving DecidableEq, Repr

/-- State of the pool program. -/
structure St (N : Nat) where
  sent : Nat
  jobsBuf : List Int
  jobsClosed : Bool
  workers : Fin N → WSt
  results : List Int
  resultsClosed : Bool
  procd : List Int

/-- The job a worker currently holds, as a multiset. -/
def heldOf : WSt → Multiset Int
  | .busy j => {j}
  | _ => 0

/-- All jobs currently held by workers. -/
def heldMS {N : Nat} (W : Fin N → WSt) : Multiset Int :=
  Finset.univ.sum fun w => heldOf (W w)

/-- One atomic channel/synchronization action of the pool program. -/
inductive Step (N : Nat) (js : List Int) (f : Int → Int) (jCap rCap : Nat) :
    St N → St N → Prop
  /-- `jobs <- j`: the feeder pushes the next job (buffered send). -/
  | send (s : St N) (h : s.sent < js.length) (hb : s.jobsBuf.length < jCap)
      (hc : s.jobsClosed = false) :
      Step N js f jCap rCap s
        { s with sent := s.sent + 1
                 jobsBuf := s.jobsBuf ++ [js.get ⟨s.sent, h⟩] }
  /-- `close(jobs)` after all jobs were sent. -/
  | closeJobs (s : St N) (h : s.sent = js.length) (hc : s.jobsClosed = false) :
      Step N js f jCap rCap s { s with jobsClosed := true }
  /-- `for job := range jobs`: an idle worker receives the next job. -/
  | take (s : St N) (w : Fin N) (j : Int) (rest : List Int)
      (hw : s.workers w = .idle) (hb : s.jobsBuf = j :: rest) :
      Step N js f jCap rCap s
        { s with jobsBuf := rest
                 workers := Function.update s.workers w (.busy j) }
  /-- `results <- f(job)`: the worker pushes the processed result. -/
  | put (s : St N) (w : Fin N) (j : Int)
      (hw : s.workers w = .busy j) (hr : s.results.length < rCap) :
      Step N js f jCap rCap s
        { s with results := s.results ++ [f j]
                 procd := s.procd ++ [j]
                 workers := Function.update s.workers w .idle }
  /-- the `range` loop ends (`jobs` closed and drained); `wg.Done()`. -/
  | exitW (s : St N) (w : Fin N)
      (hw : s.workers w = .idle) (hb : s.jobsBuf = [])
      (hc : s.jobsClosed = true) :
      Step N js f jCap rCap s
        { s with workers := Function.update s.workers w .stopped }
  /-- `wg.Wait(); close(results)`: once every worker has exited. -/
  | closeResults (s : St N) (h : ∀ w, s.workers w = .stopped)
      (hc : s.resultsClosed = false) :
      Step N js f jCap rCap s { s with resultsClosed := true }

/-- Initial state: nothing sent, everything open, all workers idle. -/
def init (N : Nat) : St N :=
  { sent := 0
    jobsBuf := []
    jobsClosed := false
    workers := fun _ => .idle
    results := []
    resultsClosed := false
    procd := [] }

/-- Reachability of the pool program. -/
def Reach (N : Nat) (js : List Int) (f : Int → Int) (jCap rCap : Nat) :
    St N → Prop :=
  Relation.ReflTransGen (Step N js f jCap rCap) (init N)

/-- Inductive invariant of the pool: sent-job conservation (every sent
job is in the buffer, held by a worker, or fully processed — no loss, no
duplication), results are exactly the processed jobs in completion
order, a stopped worker means the input is closed and drained, and a
closed output means every worker has stopped. -/
structure Inv (N : Nat) (js : List Int) (f : Int → Int) (s : St N) : Prop where
  sent_le : s.sent ≤ js.length
  closed_sent : s.jobsClosed = true → s.sent = js.length
  conserve : (↑(js.take s.sent) : Multiset Int) =
    ↑s.jobsBuf + heldMS s.workers + ↑s.procd
  results_eq : s.results = s.procd.map f
  stopped_closed : (∃ w, s.workers w = .stopped) →
    s.jobsClosed = true ∧ s.jobsBuf = []
  rc_stopped : s.resultsClosed = true → ∀ w, s.workers w = .stopped

theorem heldMS_update {N : Nat} (W : Fin N → WSt) (w : Fin N) (v : WSt) :
    heldMS (Function.update W w v) + heldOf (W w) = heldMS W + heldOf v := by
  unfold heldMS
  have h1 : (Finset.univ.sum fun x => heldOf (Function.update W w v x)) =
      heldOf v + (Finset.univ.erase w).sum fun x => heldOf (W x) := by
    rw [← Finset.add_sum_erase Finset.univ
      (fun x => heldOf (Function.update W w v x)) (Finset.mem_univ w)]
    rw [Function.update_same]
    congr 1
    refine Finset.sum_congr rfl fun x hx => ?_
    rw [Function.update_noteq (Finset.ne_of_mem_erase hx)]
  have h2 : (Finset.univ.sum fun x => heldOf (W x)) =
      heldOf (W w) + (Finset.univ.erase w).sum fun x => heldOf (W x) :=
    (Finset.add_sum_erase Finset.univ _ (Finset.mem_univ w)).symm
  rw [h1, h2]
  abel

theorem pool_inv_step {N : Nat} {js : List Int} {f : Int → Int} {jCap rCap : Nat}
    {s s' : St N} (hs : Inv N js f s) (h : Step N js f jCap rCap s s') :
    Inv N js f s' := by
  cases h with
  | send hlt hb hc =>
      refine ⟨by show s.sent + 1 ≤ js.length; omega, by simp [hc], ?_,
        hs.results_eq, ?_, hs.rc_stopped⟩
      · have := hs.conserve
        rw [← List.take_concat_get' js s.sent hlt, ← Multiset.coe_add,
          ← Multiset.coe_add, this, List.get_eq_getElem]
        abel
      · intro hw
        rcases hs.stopped_closed hw with ⟨h1, _⟩
        rw [hc] at h1
        cases h1
  | closeJobs hse hc =>
      refine ⟨hs.sent_le, fun _ => hse, hs.conserve, hs.results_eq, ?_,
        hs.rc_stopped⟩
      intro hw
      rcases hs.stopped_closed hw with ⟨h1, _⟩
      rw [hc] at h1
      cases h1
  | take w j rest hw hb =>
      refine ⟨hs.sent_le, hs.closed_sent, ?_, hs.results_eq, ?_, ?_⟩
      · have hup : heldMS (Function.update s.workers w (.busy j)) =
            heldMS s.workers + {j} := by
          have := heldMS_update s.workers w (.busy j)
          rw [hw] at this
          simpa [heldOf] using this
        have := hs.conserve
        rw [hb] at this
        show (↑(js.take s.sent) : Multiset Int) = ↑rest + _ + ↑s.procd
        rw [hup, this]
        have hco : (↑(j :: rest) : Multiset Int) = {j} + ↑rest := by
          rw [← Multiset.cons_coe, Multiset.singleton_add]
        rw [hco]
        abel
      · rintro ⟨w', hw'⟩
        exfalso
        simp only [Function.update_apply] at hw'
        by_cases hww : w' = w
        · simp [hww] at hw'
        · simp only [if_neg hww] at hw'
          rcases hs.stopped_closed ⟨w', hw'⟩ with ⟨_, h2⟩
          rw [h2] at hb
          cases hb
      · intro hrc
        exfalso
        have := hs.rc_stopped hrc w
        rw [hw] at this
        cases this
  | put w j hw hr =>
      refine ⟨hs.sent_le, hs.closed_sent, ?_, ?_, ?_, ?_⟩
      · have hup : heldMS (Function.update s.workers w .idle) + {j} =
            heldMS s.workers := by
          have := heldMS_update s.workers w .idle
          rw [hw] at this
          simpa [heldOf] using this
        have hc := hs.conserve
        show (↑(js.take s.sent) : Multiset Int) = ↑s.jobsBuf + _ + ↑(s.procd ++ [j])
        rw [← Multiset.coe_add, hc, ← hup]
        have : (↑[j] : Multiset Int) = {j} := by simp
        rw [this]
        abel
      · show s.results ++ [f j] = (s.procd ++ [j]).map f
        rw [hs.results_eq, List.map_append]
        rfl
      · rintro ⟨w', hw'⟩
        simp only [Function.update_apply] at hw'
        by_cases hww : w' = w
        · simp [hww] at hw'
        · simp only [if_neg hww] at hw'
          exact hs.stopped_closed ⟨w', hw'⟩
      · intro hrc
        exfalso
        have := hs.rc_stopped hrc w
        rw [hw] at this
        cases this
  | exitW w hw hb hc =>
      refine ⟨hs.sent_le, hs.closed_sent, ?_, hs.results_eq, fun _ => ⟨hc, hb⟩, ?_⟩
      · have hup : heldMS (Function.update s.workers w .stopped) =
            heldMS s.workers := by
          have := heldMS_update s.workers w .stopped
          rw [hw] at this
          simpa [heldOf] using this
        rw [hup]
        exact hs.conserve
      · intro hrc
        exfalso
        have := hs.rc_stopped hrc w
        rw [hw] at this
        cases this
  | closeResults hall hc =>
      exact ⟨hs.sent_le, hs.closed_sent, hs.conserve, hs.results_eq,
        hs.stopped_closed, fun _ => hall⟩

theorem pool_reach_inv {N : Nat} {js : List Int} {f : Int → Int} {jCap rCap : Nat}
    {s : St N} (h : Reach N js f jCap rCap s) : Inv N js f s := by
  induction h with
  | refl =>
      refine ⟨Nat.zero_le _, ?_, ?_, rfl, ?_, ?_⟩
      · intro h
        cases h
      · simp [init, heldMS, heldOf]
      · rintro ⟨w, hw⟩
        cases hw
      · intro h
        cases h
  | tail _ hstep ih => exact pool_inv_step ih hstep

end Pool

/-- C2: K jobs through a pool of N workers with a deterministic
processing function yield exactly K results on the output before it
closes — no job lost, none duplicated — and the output is closed exactly
once, only after all N workers have exited.  Proved for the
worker-pool pattern of `src/notes/Patterns.md`: (1) in every reachable
state with the output closed, the results are a permutation of the
f-image of the K jobs and every worker has stopped; (2) the closed flag
is monotone (with the close transition guarded on it being unset, the
output is closed at most once); (3) with the pattern's own constants
(N = 3, jobs 1..5, f = ·*2, both channels buffered at 5) a complete
execution reaching the closed output with exactly the 5 results is
exhibited. -/
theorem c2_worker_pool_conservation (N : Nat) (js : List Int) (f : Int → Int)
    (jCap rCap : Nat) (hN : 0 < N) :
    (∀ s : Pool.St N, Pool.Reach N js f jCap rCap s → s.resultsClosed = true →
        s.results.Perm (js.map f) ∧ ∀ w, s.workers w = Pool.WSt.stopped)
    ∧ (∀ s s' : Pool.St N, Pool.Step N js f jCap rCap s s' →
        s.resultsClosed = true → s'.resultsClosed = true)
    ∧ (∃ s : Pool.St 3, Pool.Reach 3 [1, 2, 3, 4, 5] (fun j => j * 2) 5 5 s ∧
        s.resultsClosed = true ∧ s.results = [2, 4, 6, 8, 10]) := by
  refine ⟨?_, ?_, ?_⟩
  · intro s hre hrc
    have hi := Pool.pool_reach_inv hre
    have hstopped := hi.rc_stopped hrc
    rcases hi.stopped_closed ⟨⟨0, hN⟩, hstopped _⟩ with ⟨hcl, hbuf⟩
    have hsent := hi.closed_sent hcl
    have hcons := hi.conserve
    have hheld : Pool.heldMS s.workers = 0 := by
      unfold Pool.heldMS
      refine Finset.sum_eq_zero fun w _ => ?_
      rw [hstopped w]
      rfl
    rw [hsent, hbuf, hheld, List.take_length] at hcons
    have hperm : js.Perm s.procd := by
      rw [← Multiset.coe_eq_coe]
      simpa using hcons
    refine ⟨?_, hstopped⟩
    rw [hi.results_eq]
    exact (hperm.symm.map f)
  · intro s s' hst hrc
    cases hst <;> first | exact hrc | rfl
  · have t0 : Pool.Reach 3 [1, 2, 3, 4, 5] (fun j => j * 2) 5 5 _ :=
      Relation.ReflTransGen.refl
    have t1 : Pool.Reach 3 [1, 2, 3, 4, 5] (fun j => j * 2) 5 5 _ :=
      t0.tail (Pool.Step.send _ (by decide) (by decide) rfl)
    have t2 : Pool.Reach 3 [1, 2, 3, 4, 5] (fun j => j * 2) 5 5 _ :=
      t1.tail (Pool.Step.send _ (by decide) (by decide) rfl)
    have t3 : Pool.Reach 3 [1, 2, 3, 4, 5] (fun j => j * 2) 5 5 _ :=
      t2.tail (Pool.Step.send _ (by decide) (by decide) rfl)
    have t4 : Pool.Reach 3 [1, 2, 3, 4, 5] (fun j => j * 2) 5 5 _ :=
      t3.tail (Pool.Step.send _ (by decide) (by decide) rfl)
    have t5 : Pool.Reach 3 [1, 2, 3, 4, 5] (fun j => j * 2) 5 5 _ :=
      t4.tail (Pool.Step.send _ (by decide) (by decide) rfl)
    have t6 : Pool.Reach 3 [1, 2, 3, 4, 5] (fun j => j * 2) 5 5 _ :=
      t5.tail (Pool.Step.closeJobs _ rfl rfl)
    have t7 : Pool.Reach 3 [1, 2, 3, 4, 5] (fun j => j * 2) 5 5 _ :=
      t6.tail (Pool.Step.take _ 0 1 [2, 3, 4, 5] rfl rfl)
    have t8 : Pool.Reach 3 [1, 2, 3, 4, 5] (fun j => j * 2) 5 5 _ :=
      t7.tail (Pool.Step.put _ 0 1 rfl (by decide))
    have t9 : Pool.Reach 3 [1, 2, 3, 4, 5] (fun j => j * 2) 5 5 _ :=
      t8.tail (Pool.Step.take _ 0 2 [3, 4, 5] rfl rfl)
    have t10 : Pool.Reach 3 [1, 2, 3, 4, 5] (fun j => j * 2) 5 5 _ :=
      t9.tail (Pool.Step.put _ 0 2 rfl (by decide))
    have t11 : Pool.Reach 3 [1, 2, 3, 4, 5] (fun j => j * 2) 5 5 _ :=
      t10.tail (Pool.Step.take _ 0 3 [4, 5] rfl rfl)
    have t12 : Pool.Reach 3 [1, 2, 3, 4, 5] (fun j => j * 2) 5 5 _ :=
      t11.tail (Pool.Step.put _ 0 3 rfl (by decide))
    have t13 : Pool.Reach 3 [1, 2, 3, 4, 5] (fun j => j * 2) 5 5 _ :=
      t12.tail (Pool.Step.take _ 0 4 [5] rfl rfl)
    have t14 : Pool.Reach 3 [1, 2, 3, 4, 5] (fun j => j * 2) 5 5 _ :=
      t13.tail (Pool.Step.put _ 0 4 rfl (by decide))
    have t15 : Pool.Reach 3 [1, 2, 3, 4, 5] (fun j => j * 2) 5 5 _ :=
      t14.tail (Pool.Step.take _ 0 5 [] rfl rfl)
    have t16 : Pool.Reach 3 [1, 2, 3, 4, 5] (fun j => j * 2) 5 5 _ :=
      t15.tail (Pool.Step.put _ 0 5 rfl (by decide))
    have t17 : Pool.Reach 3 [1, 2, 3, 4, 5] (fun j => j * 2) 5 5 _ :=
      t16.tail (Pool.Step.exitW _ 0 rfl rfl rfl)
    have t18 : Pool.Reach 3 [1, 2, 3, 4, 5] (fun j => j * 2) 5 5 _ :=
      t17.tail (Pool.Step.exitW _ 1 rfl rfl rfl)
    have t19 : Pool.Reach 3 [1, 2, 3, 4, 5] (fun j => j * 2) 5 5 _ :=
      t18.tail (Pool.Step.exitW _ 2 rfl rfl rfl)
    have t20 : Pool.Reach 3 [1, 2, 3, 4, 5] (fun j => j * 2) 5 5 _ :=
      t19.tail (Pool.Step.closeResults _ (by decide) rfl)
    exact ⟨_, t20, by decide, by decide⟩

/-- Witness for C2 at the concrete constants of `src/notes/Patterns.md`
(three workers, jobs 1..5, doubling function): the hypothesis `0 < N`
holds and the theorem applies. -/
theorem c2_worker_pool_conservation_witness :
    0 < 3 ∧ (∃ s : Pool.St 3, Pool.Reach 3 [1, 2, 3, 4, 5] (fun j => j * 2) 5 5 s ∧
      s.resultsClosed = true ∧ s.results = [2, 4, 6, 8, 10]) :=
  ⟨by decide,
    (c2_worker_pool_conservation 3 [1, 2, 3, 4, 5] (fun j => j * 2) 5 5
      (by decide)).2.2⟩

/-- C5: the fan-in merge closes the merged output only after all sources
have reported closed.  In the fan-out/fan-in pattern of
`src/notes/Patterns.md` the sources are the N worker drain loops over
the shared input; the closer runs `wg.Wait(); close(results)`.  In every
reachable state where the merged output is closed, every worker has
exited, the input is closed and it holds no pending items. -/
theorem c5_fanin_closes_only_after_all_sources (N : Nat) (js : List Int)
    (f : Int → Int) (jCap rCap : Nat) (hN : 0 < N) :
    ∀ s : Pool.St N, Pool.Reach N js f jCap rCap s → s.resultsClosed = true →
      (∀ w, s.workers w = Pool.WSt.stopped) ∧ s.jobsClosed = true ∧
        s.jobsBuf = [] := by
  intro s hre hrc
  have hi := Pool.pool_reach_inv hre
  have hstopped := hi.rc_stopped hrc
  rcases hi.stopped_closed ⟨⟨0, hN⟩, hstopped _⟩ with ⟨hcl, hbuf⟩
  exact ⟨hstopped, hcl, hbuf⟩

/-- Witness for C5 at a concrete instance (one worker, one job): a
complete six-step run — send, close input, take, put, worker exit,
close output — reaches a state whose output IS closed, and the theorem
applied there yields that the source has exited and the input is closed
and drained. -/
theorem c5_fanin_closes_only_after_all_sources_witness :
    0 < 1 ∧ ∃ s : Pool.St 1, Pool.Reach 1 [4] (fun j => j) 1 1 s ∧
      s.resultsClosed = true ∧
      ((∀ w, s.workers w = Pool.WSt.stopped) ∧ s.jobsClosed = true ∧
        s.jobsBuf = []) := by
  have t0 : Pool.Reach 1 [4] (fun j => j) 1 1 _ := Relation.ReflTransGen.refl
  have t1 : Pool.Reach 1 [4] (fun j => j) 1 1 _ :=
    t0.tail (Pool.Step.send _ (by decide) (by decide) rfl)
  have t2 : Pool.Reach 1 [4] (fun j => j) 1 1 _ :=
    t1.tail (Pool.Step.closeJobs _ rfl rfl)
  have t3 : Pool.Reach 1 [4] (fun j => j) 1 1 _ :=
    t2.tail (Pool.Step.take _ 0 4 [] rfl rfl)
  have t4 : Pool.Reach 1 [4] (fun j => j) 1 1 _ :=
    t3.tail (Pool.Step.put _ 0 4 rfl (by decide))
  have t5 : Pool.Reach 1 [4] (fun j => j) 1 1 _ :=
    t4.tail (Pool.Step.exitW _ 0 rfl rfl rfl)
  have t6 : Pool.Reach 1 [4] (fun j => j) 1 1 _ :=
    t5.tail (Pool.Step.closeResults _ (by decide) rfl)
  exact ⟨by decide, _, t6, by decide,
    c5_fanin_closes_only_after_all_sources 1 [4] (fun j => j) 1 1 (by decide)
      _ t6 (by decide)⟩

namespace Workerr

/-!
## Model of the third program of `src/unnamed/part_000`

Constants from the source: `totaljobs = 4`, `totalworker = 2`; `jobs`
and `results` are buffered channels of capacity `totaljobs`.  `main`
sends jobs `1..totaljobs`, closes `jobs`, and receives the results.
Each `workerr` loops `for j := range jobs` and — unlike the sequential
`worker` of the first program — spawns a NEW goroutine per job
(`wg.Add(1); go func(job){ results <- job*2; wg.Done() }(j)`), so a
single `workerr` can have many jobs in flight at once.  `inflight`
lists the jobs whose per-job goroutine has started but not yet pushed
its result.
-/

def totaljobs : Nat := 4

def totalworker : Nat := 2

/-- State of the `workerr` program. -/
structure St where
  sent : Nat
  jobsBuf : List Int
  jobsClosed : Bool
  looping : Fin totalworker → Bool
  inflight : List Int
  results : List Int

/-- One atomic action of the `workerr` program. -/
inductive Step : St → St → Prop
  /-- `jobs <- j` in `main` (jobs are `1..totaljobs`). -/
  | send (s : St) (h : s.sent < totaljobs) (hb : s.jobsBuf.length < totaljobs)
      (hc : s.jobsClosed = false) :
      Step s { s with sent := s.sent + 1
                      jobsBuf := s.jobsBuf ++ [(s.sent + 1 : Int)] }
  /-- `close(jobs)`. -/
  | closeJobs (s : St) (h : s.sent = totaljobs) (hc : s.jobsClosed = false) :
      Step s { s with jobsClosed := true }
  /-- `for j := range jobs` + `go func(job)...`: a looping `workerr`
  receives the next job and immediately spawns its goroutine, then loops
  to take the next job without waiting for the goroutine to finish. -/
  | takeSpawn (s : St) (w : Fin totalworker) (j : Int) (rest : List Int)
      (hw : s.looping w = true) (hb : s.jobsBuf = j :: rest) :
      Step s { s with jobsBuf := rest, inflight := s.inflight ++ [j] }
  /-- a spawned goroutine completes: `results <- job * 2; wg.Done()`. -/
  | finish (s : St) (a b : List Int) (j : Int)
      (hin : s.inflight = a ++ j :: b) (hr : s.results.length < totaljobs) :
      Step s { s with inflight := a ++ b, results := s.results ++ [j * 2] }
  /-- the `range` loop of a `workerr` ends (`jobs` closed and drained). -/
  | exitLoop (s : St) (w : Fin totalworker) (hw : s.looping w = true)
      (hb : s.jobsBuf = []) (hc : s.jobsClosed = true) :
      Step s { s with looping := Function.update s.looping w false }

/-- Initial state. -/
def init : St :=
  { sent := 0
    jobsBuf := []
    jobsClosed := false
    looping := fun _ => true
    inflight := []
    results := [] }

/-- Reachability of the `workerr` program. -/
def Reach : St → Prop := Relation.ReflTransGen Step init

end Workerr

/-- C6: the claim asserts that at most N jobs are concurrently in flight
in every reachable state.  The `workerr` variant in
`src/unnamed/part_000` spawns a goroutine per job inside its `range`
loop, so with the source's constants (`totaljobs = 4`,
`totalworker = 2`) the schedule in which `main` sends all four jobs and
both `workerr` loops take and spawn them before any per-job goroutine
pushes its result reaches a state with 4 jobs in flight — more than the
N = 2 workers. -/
theorem c6_workerr_inflight_exceeds_workers :
    ∃ s, Workerr.Reach s ∧ Workerr.totalworker < s.inflight.length := by
  have t0 : Workerr.Reach _ := Relation.ReflTransGen.refl
  have t1 : Workerr.Reach _ :=
    t0.tail (Workerr.Step.send _ (by decide) (by decide) rfl)
  have t2 : Workerr.Reach _ :=
    t1.tail (Workerr.Step.send _ (by decide) (by decide) rfl)
  have t3 : Workerr.Reach _ :=
    t2.tail (Workerr.Step.send _ (by decide) (by decide) rfl)
  have t4 : Workerr.Reach _ :=
    t3.tail (Workerr.Step.send _ (by decide) (by decide) rfl)
  have t5 : Workerr.Reach _ := t4.tail (Workerr.Step.closeJobs _ rfl rfl)
  have t6 : Workerr.Reach _ :=
    t5.tail (Workerr.Step.takeSpawn _ ⟨0, by decide⟩ 1 [2, 3, 4] rfl rfl)
  have t7 : Workerr.Reach _ :=
    t6.tail (Workerr.Step.takeSpawn _ ⟨0, by decide⟩ 2 [3, 4] rfl rfl)
  have t8 : Workerr.Reach _ :=
    t7.tail (Workerr.Step.takeSpawn _ ⟨1, by decide⟩ 3 [4] rfl rfl)
  have t9 : Workerr.Reach _ :=
    t8.tail (Workerr.Step.takeSpawn _ ⟨1, by decide⟩ 4 [] rfl rfl)
  exact ⟨_, t9, by decide⟩

namespace Pipe

/-!
## Model of the pipeline program (second program of `src/unnamed/part_000`)

`main` composes `workGenerator([0..8]) → filter → square → half` over
unbuffered channels, each stage a single goroutine consuming its input
in order and producing its output in order; the composition is therefore
the composition of the per-stage list transformations.  `square` uses
`math.Pow(float64(i), 2)` converted back to `int`.  For `|i| < 2^53`
the conversion `float64(i)` is exact, and Go's `math.Pow` with exponent
2 computes `Frexp`, then exactly one floating multiplication of the
fraction with itself, then an exact power-of-two rescale — i.e. the
correctly-rounded (nearest, ties to even) float64 value of `i*i`; for
squares representable in the int range, `int(·)` converts that float
exactly.  `square` models this with `roundFloat64`, nearest-ties-even
rounding of a natural number to 53 bits of precision (bit length is
computed with structural fuel so it reduces in the kernel; fuel 128
covers every square of a 64-bit `int`).
Go's `/` and `%` on `int` agree with Lean's `Int` operators on the
values reaching them here: `half` divides squares, which are
non-negative, and evenness (`i%2 == 0`) coincides for every `Int`. -/

/-- Bit length (number of binary digits) of `n`, with explicit
structural fuel. -/
def bitLenAux : Nat → Nat → Nat
  | 0, _ => 0
  | fuel + 1, n => if n = 0 then 0 else bitLenAux fuel (n / 2) + 1

/-- Nearest float64 value of `n` (round to nearest, ties to even):
exact below `2^53`, otherwise rounded to a multiple of the unit in the
last place `2^(bitlen - 53)`. -/
def roundFloat64 (n : Nat) : Nat :=
  if n < 2 ^ 53 then n
  else
    let u := 2 ^ (bitLenAux 128 n - 53)
    let q := n / u
    let r := n % u
    if 2 * r < u then q * u
    else if u < 2 * r then (q + 1) * u
    else if q % 2 = 0 then q * u else (q + 1) * u

/-- `filter`: forwards the even inputs (`i%2 == 0`), in order. -/
def filter : List Int → List Int
  | [] => []
  | i :: rest => if i % 2 == 0 then i :: filter rest else filter rest

/-- `square`: maps each input to `int(math.Pow(float64(i), 2))` — the
correctly-rounded float64 square — in order. -/
def square : List Int → List Int
  | [] => []
  | i :: rest => (roundFloat64 (i.natAbs * i.natAbs) : Int) :: square rest

/-- `half`: maps each input to its integer half, in order. -/
def half : List Int → List Int
  | [] => []
  | i :: rest => i / 2 :: half rest

/-- The composed pipeline of `main`: `filter`, then `square`, then `half`. -/
def pipeline (xs : List Int) : List Int := half (square (filter xs))

end Pipe

/-- C10 counterexample: the claim as stated quantifies over every finite
integer input and asserts the output is exactly `(i*i)/2` with no
truncation for any input.  At the even input `i = 189812534` the square
`i*i = 36028798063501156` lies in `[2^55, 2^56)` — where float64s are 8
apart — and is `≡ 4 (mod 8)`, so `math.Pow` returns the neighbouring
float `i*i - 4` (ties to even) and the pipeline outputs `i*i/2 - 2`,
not `i*i/2`. -/
theorem c10_pipeline_float_counterexample :
    Pipe.pipeline [189812534] ≠
      (([189812534] : List Int).filter fun i => i % 2 == 0).map
        (fun i => i * i / 2) := by
  decide

/-- C10 (amended): for inputs whose squares stay below `2^53` — where
float64 represents the square exactly — the composed pipeline outputs
exactly `(i*i)/2` for each even `i` of the input, in input order, and
on this path the integer division is exact because the square of an
even number is divisible by 4. -/
theorem c10_pipeline_even_square_half :
    (∀ xs : List Int, (∀ i ∈ xs, i.natAbs * i.natAbs < 2 ^ 53) →
      Pipe.pipeline xs =
        (xs.filter fun i => i % 2 == 0).map fun i => i * i / 2)
    ∧ ∀ i : Int, i % 2 = 0 → (4 : Int) ∣ i * i ∧ i * i / 2 * 2 = i * i := by
  constructor
  · intro xs
    induction xs with
    | nil => intro _; rfl
    | cons i rest ih =>
        intro hxs
        have hb : i.natAbs * i.natAbs < 2 ^ 53 :=
          hxs i (List.mem_cons_self i rest)
        have hrest : ∀ j ∈ rest, j.natAbs * j.natAbs < 2 ^ 53 :=
          fun j hj => hxs j (List.mem_cons_of_mem i hj)
        have hsq : (Pipe.roundFloat64 (i.natAbs * i.natAbs) : Int) = i * i := by
          simp only [Pipe.roundFloat64, if_pos hb]
          exact Int.natAbs_mul_self
        by_cases h : i % 2 == 0
        · simp only [Pipe.pipeline, Pipe.filter, Pipe.square, Pipe.half, h,
            if_true, List.filter_cons, List.map_cons]
          rw [hsq]
          exact congrArg _ (ih hrest)
        · simp only [Pipe.pipeline, Pipe.filter, h, if_false, List.filter_cons,
            Bool.false_eq_true]
          exact ih hrest
  · intro i h
    obtain ⟨k, rfl⟩ : (2 : Int) ∣ i := Int.dvd_of_emod_eq_zero h
    constructor
    · exact ⟨k * k, by ring⟩
    · have h1 : 2 * k * (2 * k) = 2 * (2 * (k * k)) := by ring
      rw [h1, Int.mul_ediv_cancel_left _ (by norm_num)]
      ring

/-- Witness for C10: the program's own input `[0..8]` satisfies the
below-`2^53` bound and the pipeline equals the claimed map over its even
elements; `i = 6` discharges the evenness hypothesis of the
exact-division part. -/
theorem c10_pipeline_even_square_half_witness :
    (∀ i ∈ ([0, 1, 2, 3, 4, 5, 6, 7, 8] : List Int),
        i.natAbs * i.natAbs < 2 ^ 53) ∧
    Pipe.pipeline [0, 1, 2, 3, 4, 5, 6, 7, 8] =
      (([0, 1, 2, 3, 4, 5, 6, 7, 8] : List Int).filter fun i => i % 2 == 0).map
        (fun i => i * i / 2) ∧
    ((6 : Int) % 2 = 0 ∧ (4 : Int) ∣ 6 * 6 ∧ (6 : Int) * 6 / 2 * 2 = 6 * 6) :=
  ⟨by decide,
    c10_pipeline_even_square_half.1 [0, 1, 2, 3, 4, 5, 6, 7, 8] (by decide),
    by decide, (c10_pipeline_even_square_half.2 6 (by decide)).1,
    (c10_pipeline_even_square_half.2 6 (by decide)).2⟩

/-- Error taxonomy of the specification (§7).  `src` contains no error
values; the names are the spec's. -/
inductive GoErr where
  | ErrClosed
  | ErrCancelled
  | ErrInvalidCapacity
  | ErrInvalidWorkerCount
deriving DecidableEq, Repr

namespace BQueue

/-- Modelled from the spec: the repository has no `BoundedQueue` type
(src/sync/cond.go keeps a bare package-level slice); §3 of the spec
defines it as an ordered FIFO sequence with a fixed capacity and a
`closed` flag. -/
structure BoundedQueue where
  items : List Int
  capacity : Int
  closed : Bool
deriving DecidableEq, Repr

/-- Modelled from the spec: `Take()` per §4.1 — removes and returns the
oldest item (FIFO); returns `(zero, ErrClosed)` once the queue is both
closed and empty; `none` marks the would-block case (empty, not
closed). -/
def Take (q : BoundedQueue) : Option (Except GoErr Int) × BoundedQueue :=
  match q.items with
  | x :: rest => (some (Except.ok x), { q with items := rest })
  | [] =>
      if q.closed then (some (Except.error GoErr.ErrClosed), q)
      else (none, q)

/-- Iterate `Take` `n` times, collecting the outcomes in order. -/
def drain (q : BoundedQueue) : Nat → List (Option (Except GoErr Int)) × BoundedQueue
  | 0 => ([], q)
  | n + 1 =>
      let r := Take q
      let rs := drain r.2 n
      (r.1 :: rs.1, rs.2)

/-- Modelled from the spec: `NewBoundedQueue(capacity int)` (§6) —
`capacity <= 0` fails with `ErrInvalidCapacity`; otherwise an empty,
open queue of that capacity. -/
def NewBoundedQueue (capacity : Int) : Except GoErr BoundedQueue :=
  if capacity ≤ 0 then Except.error GoErr.ErrInvalidCapacity
  else Except.ok { items := [], capacity := capacity, closed := false }

/-- Modelled from the spec: the worker-pool constructor's validated
configuration (§6); only the worker count matters for validation. -/
structure WorkerPoolCfg where
  n : Int
deriving DecidableEq, Repr

/-- Modelled from the spec: `NewWorkerPool(n, ...)` (§6) — `n <= 0`
fails with `ErrInvalidWorkerCount`. -/
def NewWorkerPool (n : Int) : Except GoErr WorkerPoolCfg :=
  if n ≤ 0 then Except.error GoErr.ErrInvalidWorkerCount
  else Except.ok { n := n }

end BQueue

/-- C4: after `Close()` with items still buffered, each `Take()` returns
the buffered items in FIFO order until the buffer is empty, and from
then on every `Take()` — the first and all subsequent — returns
`(zero, ErrClosed)`: draining a closed queue with buffer `b` for
`|b| + k` takes yields exactly `b` in order followed by `k` times
`ErrClosed`, leaving the queue empty and closed. -/
theorem c4_close_then_drain (q : BQueue.BoundedQueue) (hq : q.closed = true)
    (k : Nat) :
    (BQueue.drain q (q.items.length + k)).1 =
      q.items.map (fun x => some (Except.ok x)) ++
        List.replicate k (some (Except.error GoErr.ErrClosed))
    ∧ (BQueue.drain q (q.items.length + k)).2 = { q with items := [] } := by
  obtain ⟨items, cap, cl⟩ := q
  simp only at hq
  subst hq
  induction items with
  | nil =>
      simp only [List.length_nil, List.map_nil, List.nil_append, Nat.zero_add]
      induction k with
      | zero => exact ⟨rfl, rfl⟩
      | succ n ih =>
          simp only [BQueue.drain, BQueue.Take, if_pos, List.replicate_succ]
          exact ⟨congrArg _ ih.1, ih.2⟩
  | cons x rest ih =>
      have hlen : (x :: rest).length + k = (rest.length + k) + 1 := by
        simp [Nat.succ_add]
      rw [hlen]
      simp only [BQueue.drain, BQueue.Take, List.map_cons, List.cons_append]
      exact ⟨congrArg _ ih.1, ih.2⟩

/-- Witness for C4: a closed queue buffering `[10, 20]` drained four
times yields `ok 10, ok 20, ErrClosed, ErrClosed` and ends empty. -/
theorem c4_close_then_drain_witness :
    (⟨[10, 20], 2, true⟩ : BQueue.BoundedQueue).closed = true ∧
    (BQueue.drain ⟨[10, 20], 2, true⟩
        ((⟨[10, 20], 2, true⟩ : BQueue.BoundedQueue).items.length + 2)).1 =
      ([10, 20] : List Int).map (fun x => some (Except.ok x)) ++
        List.replicate 2 (some (Except.error GoErr.ErrClosed)) ∧
    (BQueue.drain ⟨[10, 20], 2, true⟩
        ((⟨[10, 20], 2, true⟩ : BQueue.BoundedQueue).items.length + 2)).2 =
      ⟨[], 2, true⟩ :=
  ⟨rfl, (c4_close_then_drain ⟨[10, 20], 2, true⟩ rfl 2).1,
    (c4_close_then_drain ⟨[10, 20], 2, true⟩ rfl 2).2⟩

/-- C8: queue construction fails with `ErrInvalidCapacity` exactly for
`capacity ≤ 0` and succeeds (empty, open queue) for every
`capacity > 0`; pool construction fails with `ErrInvalidWorkerCount`
exactly for `n ≤ 0`.  Both constructors are pure functions returning
the error, so a validation failure is fatal only to that construction
call. -/
theorem c8_construction_validation :
    (∀ capacity : Int, capacity ≤ 0 →
        BQueue.NewBoundedQueue capacity = Except.error GoErr.ErrInvalidCapacity)
    ∧ (∀ capacity : Int, 0 < capacity →
        BQueue.NewBoundedQueue capacity =
          Except.ok { items := [], capacity := capacity, closed := false })
    ∧ (∀ n : Int, n ≤ 0 →
        BQueue.NewWorkerPool n = Except.error GoErr.ErrInvalidWorkerCount)
    ∧ (∀ n : Int, 0 < n → BQueue.NewWorkerPool n = Except.ok { n := n }) := by
  refine ⟨fun c hc => ?_, fun c hc => ?_, fun n hn => ?_, fun n hn => ?_⟩
  · simp [BQueue.NewBoundedQueue, hc]
  · simp [BQueue.NewBoundedQueue, show ¬c ≤ 0 from not_le.mpr hc]
  · simp [BQueue.NewWorkerPool, hn]
  · simp [BQueue.NewWorkerPool, show ¬n ≤ 0 from not_le.mpr hn]

/-- Witness for C8 at `capacity = 0`, `capacity = 3`, `n = 0`, `n = 2`. -/
theorem c8_construction_validation_witness :
    ((0 : Int) ≤ 0 ∧
      BQueue.NewBoundedQueue 0 = Except.error GoErr.ErrInvalidCapacity)
    ∧ ((0 : Int) < 3 ∧
      BQueue.NewBoundedQueue 3 =
        Except.ok { items := [], capacity := 3, closed := false })
    ∧ ((0 : Int) ≤ 0 ∧
      BQueue.NewWorkerPool 0 = Except.error GoErr.ErrInvalidWorkerCount)
    ∧ ((0 : Int) < 2 ∧ BQueue.NewWorkerPool 2 = Except.ok { n := 2 }) :=
  ⟨⟨by decide, c8_construction_validation.1 0 (by decide)⟩,
    ⟨by decide, c8_construction_validation.2.1 3 (by decide)⟩,
    ⟨by decide, c8_construction_validation.2.2.1 0 (by decide)⟩,
    ⟨by decide, c8_construction_validation.2.2.2 2 (by decide)⟩⟩

namespace Stage

/-!
## Single-worker stage (pipeline stages of `src/unnamed/part_000`)

A stage of the pipeline program (`workGenerator`, `filter`, `square`,
`half`) is one goroutine looping `for i := range in { ... out <- g(i) }`
between two channels.  The model: a producer feeds the elements of `xs`
in order into `inBuf`; the single stage worker repeatedly takes the head
(`held`), then pushes `g` of it (`g : Int → Option Int`, `none` when the
stage filters the item out) onto `outBuf`; a consumer drains `outBuf`
into `received`.  Buffers are modelled as unbounded FIFO lists — a sound
over-approximation of Go's rendezvous/bounded channels for order
properties, since every bounded or unbuffered execution is one of these.
With `g = some` this is exactly a single-producer single-consumer FIFO
queue.  `consumed` is a history variable (the items the worker has taken,
in order); it affects no guard.
-/

/-- State of one producer → stage → consumer hop. -/
structure St where
  pos : Nat
  inBuf : List Int
  held : Option Int
  consumed : List Int
  outBuf : List Int
  received : List Int

/-- One channel action of the stage system. -/
inductive Step (g : Int → Option Int) (xs : List Int) : St → St → Prop
  /-- producer: `ch <- w` for the next element of `xs`. -/
  | send (s : St) (h : s.pos < xs.length) :
      Step g xs s
        { s with pos := s.pos + 1, inBuf := s.inBuf ++ [xs.get ⟨s.pos, h⟩] }
  /-- stage worker: `for i := range in` receives the head. -/
  | take (s : St) (j : Int) (rest : List Int) (hh : s.held = none)
      (hb : s.inBuf = j :: rest) :
      Step g xs s
        { s with inBuf := rest, held := some j, consumed := s.consumed ++ [j] }
  /-- stage worker: `out <- g(i)` (no send at all when `g` drops it). -/
  | emit (s : St) (j : Int) (hh : s.held = some j) :
      Step g xs s { s with held := none, outBuf := s.outBuf ++ (g j).toList }
  /-- consumer: `range out` receives the head of the output channel. -/
  | recv (s : St) (y : Int) (rest : List Int) (hb : s.outBuf = y :: rest) :
      Step g xs s { s with outBuf := rest, received := s.received ++ [y] }

/-- Initial state. -/
def init : St :=
  { pos := 0, inBuf := [], held := none, consumed := [], outBuf := [],
    received := [] }

/-- Reachability of the stage system. -/
def Reach (g : Int → Option Int) (xs : List Int) : St → Prop :=
  Relation.ReflTransGen (Step g xs) init

/-- Inductive invariant: the worker consumed a prefix of what was sent,
in order, and the output side holds exactly the `g`-image, in order, of
the consumed items (minus the one currently held). -/
structure Inv (g : Int → Option Int) (xs : List Int) (s : St) : Prop where
  pos_le : s.pos ≤ xs.length
  consumed_in : s.consumed ++ s.inBuf = xs.take s.pos
  processed : ∃ pr : List Int, s.consumed = pr ++ s.held.toList ∧
    s.received ++ s.outBuf = pr.filterMap g

theorem filterMap_singleton (g : Int → Option Int) (j : Int) :
    List.filterMap g [j] = (g j).toList := by
  cases hj : g j <;> simp [List.filterMap, hj]

theorem stage_inv_step {g : Int → Option Int} {xs : List Int} {s s' : St}
    (hs : Inv g xs s) (h : Step g xs s s') : Inv g xs s' := by
  obtain ⟨pr, hpr, hout⟩ := hs.processed
  cases h with
  | send hlt =>
      refine ⟨by show s.pos + 1 ≤ xs.length; omega, ?_, ⟨pr, hpr, hout⟩⟩
      show s.consumed ++ (s.inBuf ++ [xs.get ⟨s.pos, hlt⟩]) = xs.take (s.pos + 1)
      rw [← List.append_assoc, hs.consumed_in,
        ← List.take_concat_get' xs s.pos hlt, List.get_eq_getElem]
  | take j rest hh hb =>
      refine ⟨hs.pos_le, ?_, ⟨pr, ?_, hout⟩⟩
      · show (s.consumed ++ [j]) ++ rest = xs.take s.pos
        rw [List.append_assoc, List.singleton_append, ← hb]
        exact hs.consumed_in
      · rw [hh] at hpr
        simp only [Option.toList_none, List.append_nil] at hpr
        show s.consumed ++ [j] = pr ++ (some j).toList
        rw [hpr]
        rfl
  | emit j hh =>
      refine ⟨hs.pos_le, hs.consumed_in, ⟨s.consumed, by simp, ?_⟩⟩
      rw [hh] at hpr
      show s.received ++ (s.outBuf ++ (g j).toList) = s.consumed.filterMap g
      rw [hpr]
      simp only [Option.toList_some]
      rw [List.filterMap_append, filterMap_singleton,
        ← List.append_assoc, hout]
  | recv y rest hb =>
      refine ⟨hs.pos_le, hs.consumed_in, ⟨pr, hpr, ?_⟩⟩
      show (s.received ++ [y]) ++ rest = pr.filterMap g
      rw [List.append_assoc, List.singleton_append, ← hb]
      exact hout

theorem stage_reach_inv {g : Int → Option Int} {xs : List Int} {s : St}
    (h : Reach g xs s) : Inv g xs s := by
  induction h with
  | refl => exact ⟨Nat.zero_le _, rfl, ⟨[], rfl, rfl⟩⟩
  | tail _ hstep ih => exact stage_inv_step ih hstep

end Stage

/-- C7: a pipeline stage with a single worker preserves FIFO order
end-to-end, and a single-producer single-consumer queue delivers items
in the exact order they were sent (the instance `g = some`): in every
reachable state the received list is a prefix of `xs.filterMap g`
(items appear in input order), and in every completed state (everything
sent, both channels drained, worker idle) the received list is exactly
`xs.filterMap g`. -/
theorem c7_single_worker_stage_fifo (g : Int → Option Int) (xs : List Int) :
    (∀ s : Stage.St, Stage.Reach g xs s →
        ∃ rest, s.received ++ rest = xs.filterMap g)
    ∧ (∀ s : Stage.St, Stage.Reach g xs s → s.pos = xs.length →
        s.inBuf = [] → s.held = none → s.outBuf = [] →
        s.received = xs.filterMap g) := by
  constructor
  · intro s hre
    have hi := Stage.stage_reach_inv hre
    obtain ⟨pr, hpr, hout⟩ := hi.processed
    refine ⟨s.outBuf ++ (s.held.toList ++ s.inBuf ++ xs.drop s.pos).filterMap g,
      ?_⟩
    have hx : pr ++ (s.held.toList ++ s.inBuf ++ xs.drop s.pos) = xs := by
      rw [← List.append_assoc, ← List.append_assoc, ← hpr, hi.consumed_in,
        List.take_append_drop]
    have hassoc : s.received ++ (s.outBuf ++ (s.held.toList ++ s.inBuf ++
            xs.drop s.pos).filterMap g)
        = (s.received ++ s.outBuf) ++ (s.held.toList ++ s.inBuf ++
            xs.drop s.pos).filterMap g :=
      (List.append_assoc s.received s.outBuf _).symm
    rw [hassoc, hout, ← List.filterMap_append, hx]
  · intro s hre hpos hin hheld hout0
    have hi := Stage.stage_reach_inv hre
    obtain ⟨pr, hpr, hout⟩ := hi.processed
    have hcons : s.consumed = xs := by
      have := hi.consumed_in
      rw [hin, hpos, List.append_nil, List.take_length] at this
      exact this
    rw [hheld] at hpr
    simp only [Option.toList_none, List.append_nil] at hpr
    rw [hout0, List.append_nil] at hout
    rw [hout, ← hpr, hcons]

/-- Witness for C7: the pass-through instance `g = some` on `xs = [7]`,
with the complete four-step execution (send, take, emit, receive); the
consumer receives exactly `[7]`. -/
theorem c7_single_worker_stage_fifo_witness :
    ∃ s : Stage.St, Stage.Reach (fun i => some i) [7] s ∧
      s.received = List.filterMap (fun i => some i) [7] := by
  have t0 : Stage.Reach (fun i => some i) [7] _ := Relation.ReflTransGen.refl
  have t1 : Stage.Reach (fun i => some i) [7] _ :=
    t0.tail (Stage.Step.send _ (by decide))
  have t2 : Stage.Reach (fun i => some i) [7] _ :=
    t1.tail (Stage.Step.take _ 7 [] rfl rfl)
  have t3 : Stage.Reach (fun i => some i) [7] _ :=
    t2.tail (Stage.Step.emit _ 7 rfl)
  have t4 : Stage.Reach (fun i => some i) [7] _ :=
    t3.tail (Stage.Step.recv _ 7 [] rfl)
  exact ⟨_, t4,
    (c7_single_worker_stage_fifo (fun i => some i) [7]).2 _ t4 rfl rfl rfl rfl⟩

namespace CancelQ

/-!
## Cancellable bounded queue (modelled from the spec)

Modelled from the spec: the repository has no cancellable queue —
`ErrCancelled` appears nowhere in `src`; `src/unnamed/part_005` and
`src/notes/Patterns.md` §5 only demonstrate `context` cancellation raced
through `select`.  §4.1/§4.4 of the spec prescribe a `BoundedQueue`
whose blocked `Put`/`Take` race the `CancellationToken` against their
own wait condition: every wakeup of a blocked operation first checks the
token (`done`), then the closed flag, then the wait condition, and
re-blocks only when none of them fires.  One pending `Put` and one
pending `Take` are modelled alongside arbitrary interference from other
producers/consumers, the token, and `Close()`.
-/

/-- A pending `Put(v)`: still blocked, or finished with its outcome. -/
inductive PutSt where
  | blockedP (v : Int)
  | finishedP (r : Except GoErr Unit)

/-- A pending `Take()`: still blocked, or finished with its outcome. -/
inductive TakeSt where
  | blockedT
  | finishedT (r : Except GoErr Int)

/-- Queue state plus the control state of one blocked `Put` and one
blocked `Take` (`done` is the cancellation token's flag). -/
structure St where
  items : List Int
  closed : Bool
  done : Bool
  putSt : PutSt
  takeSt : TakeSt

/-- One action of the cancellable-queue system at capacity `cap`. -/
inductive Step (cap : Nat) : St → St → Prop
  /-- `Cancel()` from another thread (idempotent, monotone). -/
  | cancel (s : St) : Step cap s { s with done := true }
  /-- `Close()` from another thread. -/
  | closeQ (s : St) : Step cap s { s with closed := true }
  /-- another consumer removes the head item. -/
  | extTake (s : St) (x : Int) (rest : List Int) (h : s.items = x :: rest) :
      Step cap s { s with items := rest }
  /-- another producer appends while space remains and the queue is open. -/
  | extPut (s : St) (v : Int) (h : s.items.length < cap)
      (hc : s.closed = false) :
      Step cap s { s with items := s.items ++ [v] }
  /-- wakeup of the blocked `Put`: the token has fired, so it returns
  `ErrCancelled`. -/
  | putCancel (s : St) (v : Int) (hp : s.putSt = .blockedP v)
      (hd : s.done = true) :
      Step cap s { s with putSt := .finishedP (Except.error GoErr.ErrCancelled) }
  /-- wakeup of the blocked `Put`: not cancelled but closed, so
  `ErrClosed`. -/
  | putClosed (s : St) (v : Int) (hp : s.putSt = .blockedP v)
      (hd : s.done = false) (hc : s.closed = true) :
      Step cap s { s with putSt := .finishedP (Except.error GoErr.ErrClosed) }
  /-- wakeup of the blocked `Put`: space is available, append and
  succeed. -/
  | putOk (s : St) (v : Int) (hp : s.putSt = .blockedP v)
      (hd : s.done = false) (hc : s.closed = false)
      (h : s.items.length < cap) :
      Step cap s { s with items := s.items ++ [v],
                          putSt := .finishedP (Except.ok ()) }
  /-- wakeup of the blocked `Put` with nothing fired and the queue still
  full: re-check the predicate and block again. -/
  | putSpin (s : St) (v : Int) (hp : s.putSt = .blockedP v)
      (hd : s.done = false) (hc : s.closed = false)
      (h : cap ≤ s.items.length) : Step cap s s
  /-- wakeup of the blocked `Take`: the token has fired, so it returns
  `ErrCancelled`. -/
  | takeCancel (s : St) (hp : s.takeSt = .blockedT) (hd : s.done = true) :
      Step cap s { s with takeSt := .finishedT (Except.error GoErr.ErrCancelled) }
  /-- wakeup of the blocked `Take`: closed and empty, so `ErrClosed`. -/
  | takeClosed (s : St) (hp : s.takeSt = .blockedT) (hd : s.done = false)
      (hc : s.closed = true) (h : s.items = []) :
      Step cap s { s with takeSt := .finishedT (Except.error GoErr.ErrClosed) }
  /-- wakeup of the blocked `Take`: an item is available, take it. -/
  | takeOk (s : St) (x : Int) (rest : List Int) (hp : s.takeSt = .blockedT)
      (hd : s.done = false) (h : s.items = x :: rest) :
      Step cap s { s with items := rest, takeSt := .finishedT (Except.ok x) }
  /-- wakeup of the blocked `Take` with nothing fired and the queue still
  empty: re-check the predicate and block again. -/
  | takeSpin (s : St) (hp : s.takeSt = .blockedT) (hd : s.done = false)
      (hc : s.closed = false) (h : s.items = []) : Step cap s s

end CancelQ

/-- C3: once the cancellation token has fired, a `Put` blocked on a full
queue or a `Take` blocked on an empty queue returns `ErrCancelled` at
its very next wakeup, regardless of the buffer's condition: the
finishing-with-`ErrCancelled` transition is enabled, and no transition
of the system resolves the blocked operation to any other outcome —
cancellation is raced against the wait condition, not observed only at
the next loop iteration. -/
theorem c3_cancellation_unblocks (cap : Nat) (s : CancelQ.St) (v : Int)
    (hd : s.done = true) :
    (s.putSt = .blockedP v →
      CancelQ.Step cap s
          { s with putSt := .finishedP (Except.error GoErr.ErrCancelled) } ∧
        ∀ s', CancelQ.Step cap s s' → s'.putSt = .blockedP v ∨
          s'.putSt = .finishedP (Except.error GoErr.ErrCancelled))
    ∧ (s.takeSt = .blockedT →
      CancelQ.Step cap s
          { s with takeSt := .finishedT (Except.error GoErr.ErrCancelled) } ∧
        ∀ s', CancelQ.Step cap s s' → s'.takeSt = .blockedT ∨
          s'.takeSt = .finishedT (Except.error GoErr.ErrCancelled)) := by
  constructor
  · intro hp
    refine ⟨CancelQ.Step.putCancel s v hp hd, fun s' hst => ?_⟩
    cases hst with
    | putCancel _ _ _ => right; rfl
    | putClosed _ _ hdf _ => rw [hd] at hdf; cases hdf
    | putOk _ _ hdf _ _ => rw [hd] at hdf; cases hdf
    | putSpin _ _ _ _ _ => left; exact hp
    | cancel => left; exact hp
    | closeQ => left; exact hp
    | extTake _ _ _ => left; exact hp
    | extPut _ _ _ => left; exact hp
    | takeCancel _ _ => left; exact hp
    | takeClosed _ _ _ _ => left; exact hp
    | takeOk _ _ _ _ _ => left; exact hp
    | takeSpin _ _ _ _ => left; exact hp
  · intro hp
    refine ⟨CancelQ.Step.takeCancel s hp hd, fun s' hst => ?_⟩
    cases hst with
    | takeCancel _ _ => right; rfl
    | takeClosed _ hdf _ _ => rw [hd] at hdf; cases hdf
    | takeOk _ _ _ hdf _ => rw [hd] at hdf; cases hdf
    | takeSpin _ _ _ _ => left; exact hp
    | putSpin _ _ _ _ _ => left; exact hp
    | cancel => left; exact hp
    | closeQ => left; exact hp
    | extTake _ _ _ => left; exact hp
    | extPut _ _ _ => left; exact hp
    | putCancel _ _ _ => left; exact hp
    | putClosed _ _ _ _ => left; exact hp
    | putOk _ _ _ _ _ => left; exact hp

/-- Witness for C3: a full queue of capacity 1 holding `[9]`, a fired
token, a `Put(5)` blocked on it and a `Take` still blocked from before:
both hypotheses are discharged and both operations' next wakeups are the
`ErrCancelled` returns. -/
theorem c3_cancellation_unblocks_witness :
    (⟨[9], false, true, .blockedP 5, .blockedT⟩ : CancelQ.St).done = true ∧
    CancelQ.Step 1 ⟨[9], false, true, .blockedP 5, .blockedT⟩
      ⟨[9], false, true, .finishedP (Except.error GoErr.ErrCancelled),
        .blockedT⟩ ∧
    CancelQ.Step 1 ⟨[9], false, true, .blockedP 5, .blockedT⟩
      ⟨[9], false, true, .blockedP 5,
        .finishedT (Except.error GoErr.ErrCancelled)⟩ :=
  ⟨rfl,
    ((c3_cancellation_unblocks 1 ⟨[9], false, true, .blockedP 5, .blockedT⟩ 5
        rfl).1 rfl).1,
    ((c3_cancellation_unblocks 1 ⟨[9], false, true, .blockedP 5, .blockedT⟩ 5
        rfl).2 rfl).1⟩
